import Mathlib

/-!
Verification of `src/fix_frame_data.py`: a one-shot source-rewriting script
that walks a directory tree and, for every file whose name ends in `.rs`,
applies eight ordered `re.sub` substitutions to the file's content, writing
the file back (and printing one log line) only when the content changed.

The embedding is shallow: file content is a `String` (a list of characters);
the eight regular expressions — all of which consist only of literal
characters and `\s*` (a possibly empty run of whitespace) — are modelled by
token lists (`Tok`), and `re.sub`'s global, left-to-right, leftmost,
non-overlapping substitution is modelled by `subAux`.  `\s` is modelled on
the ASCII range (the six ASCII whitespace characters Python's `re` accepts
there); none of the repository's patterns or replacements involve
characters outside that range.  Each of the eight patterns starts with a
literal character, so no pattern ever matches the empty string and the
zero-width-match corner of `re.sub` cannot arise.

Filesystem effects are modelled by explicit state passing: a `FileEntry`
carries a name, its on-disk content and the fate of the I/O operations on
it, the per-file procedure returns `Except (FsError × FileEntry)` — the
error carries the file's on-disk state at the moment of the failure, since
`open(filepath, 'w')` truncates the file before the write so a mid-write
failure leaves it truncated rather than untouched — and the main loop
threads the list of discovered files, collecting log lines and stopping at
the first uncaught error, exactly as an uncaught Python exception would.
-/

namespace FixFrameData

/-- One token of a compiled pattern: a literal character, or `\s*`
(a greedy, possibly empty run of whitespace). -/
inductive Tok where
  | lit (c : Char)
  | wsStar
  deriving DecidableEq, Repr

/-- Python `re`'s `\s` on the ASCII range: space, `\t`, `\n`, `\r`,
`\x0b` (vertical tab), `\x0c` (form feed). -/
def pyIsSpace (c : Char) : Bool :=
  c = ' ' || c = '\t' || c = '\n' || c = '\r' || c = '\x0b' || c = '\x0c'

/-- Length of the maximal whitespace run at the head of `s` — the most
that a greedy `\s*` can consume. -/
def leadingWs : List Char → Nat
  | [] => 0
  | c :: cs => if pyIsSpace c then leadingWs cs + 1 else 0

/-- Greedy backtracking for `\s*`: try consuming `k` characters first,
then `k-1`, …, down to `0`; the first continuation that matches wins. -/
def tryFrom (f : List Char → Option Nat) (s : List Char) : Nat → Option Nat
  | 0 => f s
  | k + 1 =>
    match f (List.drop (k + 1) s) with
    | some m => some (k + 1 + m)
    | none => tryFrom f s k

/-- Match a token list against the head of `s`; returns the number of
characters consumed by the (greedy, backtracking) match, if any. -/
def matchToks : List Tok → List Char → Option Nat
  | [], _ => some 0
  | Tok.lit _ :: _, [] => none
  | Tok.lit c :: ts, x :: xs =>
    if x = c then (matchToks ts xs).map (· + 1) else none
  | Tok.wsStar :: ts, s => tryFrom (matchToks ts) s (leadingWs s)

/-- The scanning loop of `re.sub`: at each position, if the pattern matches
(consuming at least one character), emit the replacement and resume after
the matched text; otherwise emit the current character and advance by one.
`fuel` makes the recursion structural; it is instantiated with the length
of the string, which suffices since every step consumes at least one
character. -/
def subAux (p : List Tok) (r : List Char) : Nat → List Char → List Char
  | _, [] => []
  | 0, s => s
  | fuel + 1, c :: rest =>
    match matchToks p (c :: rest) with
    | some (L + 1) => r ++ subAux p r fuel (List.drop L rest)
    | _ => c :: subAux p r fuel rest

/-- Embedding of `re.sub(pattern, repl, s)` on character lists. -/
def reSubL (p : List Tok) (r : List Char) (s : List Char) : List Char :=
  subAux p r s.length s

/-- Embedding of `re.sub(pattern, repl, s)` on strings. -/
def reSub (p : List Tok) (r : String) (s : String) : String :=
  ⟨reSubL p r.data s.data⟩

/-- Compile a run of literal characters. -/
def litToks (s : List Char) : List Tok := s.map Tok.lit

/-- Compile the string form of a literal pattern. -/
def strToks (s : String) : List Tok := litToks s.data

/-- Pattern 1 of the list: `r'video_data:'`. -/
def pat1 : List Tok := strToks "video_data:"

/-- Pattern 2 of the list: `r'tally_data:\s*None,'`. -/
def pat2 : List Tok := strToks "tally_data:" ++ Tok.wsStar :: strToks "None,"

/-- Pattern 3 of the list: `r'scene3d_data:\s*None,'`. -/
def pat3 : List Tok := strToks "scene3d_data:" ++ Tok.wsStar :: strToks "None,"

/-- Pattern 4 of the list: `r'spatial_audio_data:\s*None,'`. -/
def pat4 : List Tok := strToks "spatial_audio_data:" ++ Tok.wsStar :: strToks "None,"

/-- Pattern 5 of the list: `r'transform_data:\s*None,'`. -/
def pat5 : List Tok := strToks "transform_data:" ++ Tok.wsStar :: strToks "None,"

/-- Pattern 6 of the list: `r'Some\(frame\)'`. -/
def pat6 : List Tok := strToks "Some(frame)"

/-- Pattern 7 of the list: `r'Some\(video_frame\)'`. -/
def pat7 : List Tok := strToks "Some(video_frame)"

/-- Pattern 8 of the list: `r'Some\(frame_data\)'`. -/
def pat8 : List Tok := strToks "Some(frame_data)"

/-- The fixed eight-element pattern list of `fix_frame_data_in_file`
(`src/fix_frame_data.py`, lines 9–19), in source order. -/
def patterns : List (List Tok × String) :=
  [ (pat1, "render_data:"),
    (pat2, ""),
    (pat3, ""),
    (pat4, ""),
    (pat5, "control_data: None,"),
    (pat6, "Some(RenderData::Raster2D(frame))"),
    (pat7, "Some(RenderData::Raster2D(video_frame))"),
    (pat8, "Some(RenderData::Raster2D(frame_data))") ]

/-- The substitution loop of `fix_frame_data_in_file` (lines 21–23):
`for pattern, replacement in patterns: new_content = re.sub(...)`. -/
def applyPatterns : List (List Tok × String) → String → String
  | [], s => s
  | (p, r) :: ps, s => applyPatterns ps (reSub p r s)

/-- The complete transform: the loop run over the full pattern list. -/
def fixContent (content : String) : String :=
  applyPatterns patterns content

/-- The errors an uncaught Python `OSError`/`UnicodeDecodeError` can carry
in this program (spec section 7). -/
inductive FsError where
  | readError
  | writeError
  | traversalError
  deriving DecidableEq, Repr

/-- One file on disk: its name, its current content, and the fate of the
I/O operations the program runs on it.  `readable` is whether
`open(filepath, 'r')` plus the read succeed; `writable` is whether the
whole truncate-and-write (`open(filepath, 'w')` then `f.write`) succeeds.
When the write fails, `truncatesOnFail` tells whether the
`open(filepath, 'w')` itself succeeded — in which case it already
truncated the file before the failure — and `flushed` is how many
characters of the new content reached the disk before the failure. -/
structure FileEntry where
  name : String
  content : String
  readable : Bool
  writable : Bool
  truncatesOnFail : Bool
  flushed : Nat
  deriving DecidableEq, Repr

/-- The on-disk state of a file after a failed write.  Line 26's
`open(filepath, 'w')` truncates the file as soon as the open succeeds, so
a failure during the write itself (e.g. disk full) leaves the file holding
only the prefix of the transformed content that was flushed; only when the
open itself fails is the file untouched. -/
def failedWriteState (e : FileEntry) : FileEntry :=
  if e.truncatesOnFail then
    { e with content := ⟨(fixContent e.content).data.take e.flushed⟩ }
  else
    e

/-- Embedding of `fix_frame_data_in_file(filepath)` (lines 4–28): read the
content, fold the eight substitutions over it, and — only if the result
differs — truncate-and-write the file and print `Fixed patterns in
<path>`.  Read and write failures surface as uncaught exceptions; the
error carries the file's on-disk state at the moment of the failure
(untouched for a read failure, `failedWriteState` for a write failure). -/
def fix_frame_data_in_file (e : FileEntry) :
    Except (FsError × FileEntry) (FileEntry × List String) :=
  if e.readable then
    let content := e.content
    let new_content := fixContent content
    if new_content ≠ content then
      if e.writable then
        Except.ok ({ e with content := new_content }, ["Fixed patterns in " ++ e.name])
      else
        Except.error (FsError.writeError, failedWriteState e)
    else
      Except.ok (e, [])
  else
    Except.error (FsError.readError, e)

/-- The suffix filter of the main loop (line 33): `file.endswith('.rs')`. -/
def endsWithRs (name : String) : Bool :=
  (".rs".data).isSuffixOf name.data

/-- One iteration of the walk loop body (lines 32–35): files whose name
does not end in `.rs` are skipped with no side effect; the rest go through
`fix_frame_data_in_file`. -/
def walkStep (e : FileEntry) : Except (FsError × FileEntry) (FileEntry × List String) :=
  if endsWithRs e.name then fix_frame_data_in_file e else Except.ok (e, [])

/-- The run over a list of discovered files: each file is processed in
order; an uncaught error aborts immediately, leaving the failing file in
whatever state the failure left it, every later file untouched, and
producing no further log lines.  Returns the final on-disk state of every
file, the log lines in order, and the uncaught error, if any. -/
def runRewriter : List FileEntry → List FileEntry × List String × Option FsError
  | [] => ([], [], none)
  | e :: rest =>
    match walkStep e with
    | Except.error (err, e') => (e' :: rest, [], some err)
    | Except.ok (e', logs) =>
      (e' :: (runRewriter rest).1, logs ++ (runRewriter rest).2.1, (runRewriter rest).2.2)

/-- Modelled from the Python standard library semantics of `os.walk` (the
call on line 31 passes no `onerror`, so `onerror=None`): an `OSError` from
listing a directory is silently ignored and that directory contributes no
files; the walk continues with the remaining directories.  Each element is
the result of listing one directory. -/
def osWalk : List (Except FsError (List FileEntry)) → List FileEntry
  | [] => []
  | Except.ok fs :: ds => fs ++ osWalk ds
  | Except.error _ :: ds => osWalk ds


/-! ### Basic facts about the matcher -/

theorem tryFrom_hit (f : List Char → Option Nat) (s : List Char) (k m : Nat)
    (h : f (s.drop k) = some m) : tryFrom f s k = some (k + m) := by
  cases k with
  | zero => simpa [tryFrom] using h
  | succ k => simp [tryFrom, h]

theorem tryFrom_some (f : List Char → Option Nat) (s : List Char) :
    ∀ (k m : Nat), tryFrom f s k = some m →
      ∃ j m', j ≤ k ∧ f (s.drop j) = some m' ∧ m = j + m' := by
  intro k
  induction k with
  | zero =>
    intro m h
    exact ⟨0, m, Nat.le_refl 0, by simpa [tryFrom] using h, by omega⟩
  | succ k ih =>
    intro m h
    rw [tryFrom] at h
    cases hf : f (s.drop (k + 1)) with
    | some m' =>
      rw [hf] at h
      exact ⟨k + 1, m', Nat.le_refl _, hf, by simpa using h.symm⟩
    | none =>
      rw [hf] at h
      obtain ⟨j, m', hj, hfj, hm⟩ := ih m h
      exact ⟨j, m', Nat.le_succ_of_le hj, hfj, hm⟩

theorem leadingWs_le (s : List Char) : leadingWs s ≤ s.length := by
  induction s with
  | nil => simp [leadingWs]
  | cons c cs ih =>
    rw [leadingWs]
    split
    · simpa using ih
    · simp

theorem ws_of_take_leadingWs (s : List Char) :
    ∀ (j : Nat), j ≤ leadingWs s → ∀ c ∈ s.take j, pyIsSpace c = true := by
  induction s with
  | nil => intro j _ c hc; simp at hc
  | cons x xs ih =>
    intro j hj c hc
    cases j with
    | zero => simp at hc
    | succ j =>
      by_cases hx : pyIsSpace x
      · rw [List.take_succ_cons] at hc
        rcases List.mem_cons.mp hc with h | h
        · exact h ▸ hx
        · exact ih j (by simpa [leadingWs, hx] using hj) c h
      · simp [leadingWs, hx] at hj

theorem leadingWs_ws_append (s : List Char) (c : Char) (d : List Char)
    (hs : ∀ x ∈ s, pyIsSpace x = true) (hc : pyIsSpace c = false) :
    leadingWs (s ++ c :: d) = s.length := by
  induction s with
  | nil => simp [leadingWs, hc]
  | cons x xs ih =>
    have hx : pyIsSpace x = true := hs x (List.mem_cons_self x xs)
    have ih' := ih (fun y hy => hs y (List.mem_cons_of_mem x hy))
    show leadingWs (x :: (xs ++ c :: d)) = xs.length + 1
    rw [leadingWs, if_pos hx, ih']

theorem matchToks_le_length : ∀ (p : List Tok) (t : List Char) (n : Nat),
    matchToks p t = some n → n ≤ t.length := by
  intro p
  induction p with
  | nil => intro t n h; simp [matchToks] at h; omega
  | cons tk ts ih =>
    intro t n h
    cases tk with
    | lit c =>
      cases t with
      | nil => simp [matchToks] at h
      | cons x xs =>
        rw [matchToks] at h
        by_cases hx : x = c
        · rw [if_pos hx] at h
          cases hm : matchToks ts xs with
          | none => rw [hm] at h; simp at h
          | some m =>
            rw [hm] at h
            have hle := ih xs m hm
            have hn : m + 1 = n := by simpa using h
            simp only [List.length_cons]
            omega
        · rw [if_neg hx] at h; simp at h
    | wsStar =>
      rw [matchToks] at h
      obtain ⟨j, m', hj, hfj, hm⟩ := tryFrom_some _ t _ n h
      have h1 := ih (t.drop j) m' hfj
      have h2 := leadingWs_le t
      rw [List.length_drop] at h1
      omega

theorem matchToks_head (c₀ : Char) (ts : List Tok) (t : List Char) (n : Nat)
    (h : matchToks (Tok.lit c₀ :: ts) t = some n) :
    ∃ t', t = c₀ :: t' ∧ 1 ≤ n := by
  cases t with
  | nil => simp [matchToks] at h
  | cons x xs =>
    rw [matchToks] at h
    by_cases hx : x = c₀
    · subst hx
      refine ⟨xs, rfl, ?_⟩
      cases hm : matchToks ts xs with
      | none => rw [hm] at h; simp at h
      | some m =>
        rw [hm] at h
        have : m + 1 = n := by simpa using h
        omega
    · rw [if_neg hx] at h; simp at h

theorem matchToks_chars : ∀ (p : List Tok) (t : List Char) (n : Nat),
    matchToks p t = some n → ∀ c ∈ t.take n, (Tok.lit c ∈ p) ∨ pyIsSpace c = true := by
  intro p
  induction p with
  | nil =>
    intro t n h c hc
    have hn : n = 0 := by simpa [matchToks] using h.symm
    subst hn
    simp at hc
  | cons tk ts ih =>
    intro t n h c hc
    cases tk with
    | lit c₀ =>
      obtain ⟨t', rfl, hn⟩ := matchToks_head c₀ ts t n h
      rw [matchToks, if_pos rfl] at h
      cases hm : matchToks ts t' with
      | none => rw [hm] at h; simp at h
      | some m =>
        rw [hm] at h
        have hnm : m + 1 = n := by simpa using h
        subst hnm
        rw [List.take_succ_cons] at hc
        rcases List.mem_cons.mp hc with h1 | h1
        · subst h1; exact Or.inl (List.mem_cons_self _ _)
        · rcases ih t' m hm c h1 with h2 | h2
          · exact Or.inl (List.mem_cons_of_mem _ h2)
          · exact Or.inr h2
    | wsStar =>
      rw [matchToks] at h
      obtain ⟨j, m', hj, hfj, hm⟩ := tryFrom_some _ t _ n h
      subst hm
      rw [List.take_add] at hc
      rcases List.mem_append.mp hc with h1 | h1
      · exact Or.inr (ws_of_take_leadingWs t j hj c h1)
      · rcases ih (t.drop j) m' hfj c h1 with h2 | h2
        · exact Or.inl (List.mem_cons_of_mem _ h2)
        · exact Or.inr h2

theorem lits_match_of (w : List Char) : ∀ (t : List Char), w <+: t →
    matchToks (litToks w) t = some w.length := by
  induction w with
  | nil => intro t _; simp [litToks, matchToks]
  | cons c w' ih =>
    intro t hpre
    obtain ⟨u, rfl⟩ := hpre
    have h1 : matchToks (litToks w') (w' ++ u) = some w'.length := ih _ ⟨u, rfl⟩
    show matchToks (Tok.lit c :: litToks w') (c :: (w' ++ u)) = some (w'.length + 1)
    rw [matchToks, if_pos rfl, h1]
    rfl

theorem lits_match_inv (w : List Char) : ∀ (t : List Char) (n : Nat),
    matchToks (litToks w) t = some n → n = w.length ∧ w <+: t := by
  induction w with
  | nil =>
    intro t n h
    have hn : n = 0 := by simpa [litToks, matchToks] using h.symm
    exact ⟨by simp [hn], ⟨_, rfl⟩⟩
  | cons c w' ih =>
    intro t n h
    obtain ⟨t', rfl, hn⟩ := matchToks_head c _ t n h
    rw [show litToks (c :: w') = Tok.lit c :: litToks w' from rfl] at h
    rw [matchToks, if_pos rfl] at h
    cases hm : matchToks (litToks w') t' with
    | none => rw [hm] at h; simp at h
    | some m =>
      rw [hm] at h
      have hnm : m + 1 = n := by simpa using h
      obtain ⟨hm1, hm2⟩ := ih t' m hm
      subst hm1
      constructor
      · simp only [List.length_cons]; omega
      · exact (List.cons_prefix_cons).mpr ⟨rfl, hm2⟩

theorem litRun_step (w : List Char) : ∀ (ts : List Tok) (u : List Char) (n : Nat),
    matchToks ts u = some n →
    matchToks (litToks w ++ ts) (w ++ u) = some (w.length + n) := by
  induction w with
  | nil => intro ts u n h; simpa [litToks] using h
  | cons c w' ih =>
    intro ts u n h
    have h1 := ih ts u n h
    show matchToks (Tok.lit c :: (litToks w' ++ ts)) (c :: (w' ++ u)) = some (w'.length + 1 + n)
    rw [matchToks, if_pos rfl, h1]
    show some (w'.length + n + 1) = some (w'.length + 1 + n)
    congr 1
    omega

theorem litRun_inv (w : List Char) : ∀ (ts : List Tok) (u : List Char) (n : Nat),
    matchToks (litToks w ++ ts) u = some n →
    ∃ n', matchToks ts (u.drop w.length) = some n' ∧ n = w.length + n' ∧ w <+: u := by
  induction w with
  | nil =>
    intro ts u n h
    exact ⟨n, by simpa [litToks] using h, by simp, ⟨_, rfl⟩⟩
  | cons c w' ih =>
    intro ts u n h
    rw [show litToks (c :: w') ++ ts = Tok.lit c :: (litToks w' ++ ts) from rfl] at h
    obtain ⟨u', rfl, hn⟩ := matchToks_head c _ u n h
    rw [matchToks, if_pos rfl] at h
    cases hm : matchToks (litToks w' ++ ts) u' with
    | none => rw [hm] at h; simp at h
    | some m =>
      rw [hm] at h
      have hnm : m + 1 = n := by simpa using h
      obtain ⟨n', h1, h2, h3⟩ := ih ts u' m hm
      refine ⟨n', by simpa using h1, by simp; omega, (List.cons_prefix_cons).mpr ⟨rfl, h3⟩⟩


/-! ### Structural facts about the scanning loop -/

theorem subAux_nil (p : List Tok) (r : List Char) (f : Nat) : subAux p r f [] = [] := by
  cases f <;> rfl

theorem subAux_zero (p : List Tok) (r : List Char) (s : List Char) : subAux p r 0 s = s := by
  cases s <;> rfl

theorem subAux_succ_match (p : List Tok) (r : List Char) (f : Nat) (c : Char)
    (rest : List Char) (L : Nat) (h : matchToks p (c :: rest) = some (L + 1)) :
    subAux p r (f + 1) (c :: rest) = r ++ subAux p r f (List.drop L rest) := by
  rw [subAux, h]

theorem subAux_succ_nomatch (p : List Tok) (r : List Char) (f : Nat) (c : Char)
    (rest : List Char) (h : matchToks p (c :: rest) = none) :
    subAux p r (f + 1) (c :: rest) = c :: subAux p r f rest := by
  rw [subAux, h]

theorem subAux_succ_zmatch (p : List Tok) (r : List Char) (f : Nat) (c : Char)
    (rest : List Char) (h : matchToks p (c :: rest) = some 0) :
    subAux p r (f + 1) (c :: rest) = c :: subAux p r f rest := by
  rw [subAux, h]

theorem subAux_fuel (p : List Tok) (r : List Char) :
    ∀ (t : List Char) (f : Nat), t.length ≤ f →
      subAux p r f t = subAux p r t.length t
  | [], f, _ => by rw [subAux_nil, subAux_nil]
  | c :: rest, f, hf => by
    obtain ⟨f', rfl⟩ : ∃ f', f = f' + 1 := ⟨f - 1, by simp at hf; omega⟩
    have hr : rest.length ≤ f' := by simp at hf; omega
    rw [show (c :: rest).length = rest.length + 1 from rfl]
    cases hm : matchToks p (c :: rest) with
    | none =>
      rw [subAux_succ_nomatch p r f' c rest hm, subAux_succ_nomatch p r rest.length c rest hm,
        subAux_fuel p r rest f' hr, subAux_fuel p r rest rest.length (Nat.le_refl _)]
    | some n =>
      cases n with
      | zero =>
        rw [subAux_succ_zmatch p r f' c rest hm, subAux_succ_zmatch p r rest.length c rest hm,
          subAux_fuel p r rest f' hr, subAux_fuel p r rest rest.length (Nat.le_refl _)]
      | succ L =>
        have hL : (List.drop L rest).length ≤ f' := by simp; omega
        have hL2 : (List.drop L rest).length ≤ rest.length := by simp
        rw [subAux_succ_match p r f' c rest L hm, subAux_succ_match p r rest.length c rest L hm,
          subAux_fuel p r (List.drop L rest) f' hL, subAux_fuel p r (List.drop L rest) rest.length hL2]
termination_by t _ _ => t.length
decreasing_by
  all_goals simp only [List.length_drop, List.length_cons]
  all_goals omega

theorem subAux_id (p : List Tok) (r : List Char) :
    ∀ (t : List Char) (f : Nat),
      (∀ i, i < t.length → matchToks p (t.drop i) = none) →
      subAux p r f t = t
  | [], f, _ => subAux_nil p r f
  | _ :: _, 0, _ => subAux_zero p r _
  | c :: rest, f + 1, h => by
    have h0 : matchToks p (c :: rest) = none := by simpa using h 0 (by simp)
    rw [subAux_succ_nomatch p r f c rest h0]
    rw [subAux_id p r rest f (fun i hi => by
      simpa using h (i + 1) (by simpa using Nat.succ_lt_succ hi))]
termination_by t f _ => (t.length, f)

theorem subAux_step (p : List Tok) (r : List Char) :
    ∀ (a m b : List Char) (f : Nat),
      (a ++ m ++ b).length ≤ f →
      1 ≤ m.length →
      matchToks p (m ++ b) = some m.length →
      (∀ i, i < a.length → matchToks p ((a ++ m ++ b).drop i) = none) →
      subAux p r f (a ++ m ++ b) = a ++ r ++ subAux p r b.length b
  | [], m, b, f, hf, hm1, hm, _ => by
    obtain ⟨c, m', rfl⟩ : ∃ c m', m = c :: m' := by
      cases m with
      | nil => simp at hm1
      | cons c m' => exact ⟨c, m', rfl⟩
    obtain ⟨f', rfl⟩ : ∃ f', f = f' + 1 := ⟨f - 1, by simp at hf; omega⟩
    have hm' : matchToks p (c :: (m' ++ b)) = some (m'.length + 1) := by
      simpa using hm
    have hb : b.length ≤ f' := by simp at hf; omega
    rw [List.nil_append]
    rw [show (c :: m') ++ b = c :: (m' ++ b) from rfl]
    rw [subAux_succ_match p r f' c (m' ++ b) m'.length hm']
    rw [List.drop_left]
    rw [subAux_fuel p r b f' hb]
    rw [List.nil_append]
  | x :: a', m, b, f, hf, hm1, hm, hno => by
    obtain ⟨f', rfl⟩ : ∃ f', f = f' + 1 := ⟨f - 1, by simp at hf; omega⟩
    have h0 : matchToks p (x :: (a' ++ m ++ b)) = none := by
      simpa using hno 0 (by simp)
    rw [show (x :: a') ++ m ++ b = x :: (a' ++ m ++ b) from rfl]
    rw [subAux_succ_nomatch p r f' x _ h0]
    rw [subAux_step p r a' m b f' (by simp at hf ⊢; omega) hm1 hm (fun i hi => by
      have := hno (i + 1) (by simp at hi ⊢; omega)
      simpa using this)]
    rfl

theorem findLeft (p : List Tok)
    (hpos : ∀ t n, matchToks p t = some n → 1 ≤ n) :
    ∀ t : List Char,
      (∀ i, i < t.length → matchToks p (t.drop i) = none) ∨
      (∃ a m b, t = a ++ m ++ b ∧ matchToks p (m ++ b) = some m.length ∧ 1 ≤ m.length ∧
        ∀ i, i < a.length → matchToks p (t.drop i) = none)
  | [] => Or.inl (fun i hi => by simp at hi)
  | c :: rest => by
    cases hm : matchToks p (c :: rest) with
    | some n =>
      right
      have hle : n ≤ (c :: rest).length := matchToks_le_length p _ n hm
      refine ⟨[], (c :: rest).take n, (c :: rest).drop n, by simp, ?_, ?_,
        fun i hi => by simp at hi⟩
      · rw [List.take_append_drop, List.length_take, Nat.min_eq_left hle]
        exact hm
      · rw [List.length_take, Nat.min_eq_left hle]
        exact hpos _ n hm
    | none =>
      rcases findLeft p hpos rest with h | ⟨a, m, b, he, hmm, h1, hno⟩
      · left
        intro i hi
        cases i with
        | zero => simpa using hm
        | succ i => simpa using h i (by simpa using hi)
      · right
        refine ⟨c :: a, m, b, by simp [he], hmm, h1, ?_⟩
        intro i hi
        cases i with
        | zero => simpa using hm
        | succ i =>
          have := hno i (by simp at hi ⊢; omega)
          simpa using this

/-! ### Decomposition helpers for prefixes, suffixes and contiguous substrings -/

theorem occ_of_inf {v t : List Char} (hv : v ≠ []) (h : v <:+: t) :
    ∃ i, i < t.length ∧ v <+: t.drop i := by
  obtain ⟨s, u, rfl⟩ := h
  refine ⟨s.length, ?_, ?_⟩
  · cases v with
    | nil => exact absurd rfl hv
    | cons d v' =>
      simp only [List.length_append, List.length_cons]
      omega
  · rw [List.append_assoc, List.drop_left]
    exact ⟨u, rfl⟩

theorem pre_append_split {α : Type} (v x y : List α) (h : v <+: x ++ y) :
    v <+: x ∨ (x <+: v ∧ v.drop x.length <+: y) := by
  induction x generalizing v with
  | nil => exact Or.inr ⟨⟨_, rfl⟩, by simpa using h⟩
  | cons c x' ih =>
    cases v with
    | nil => exact Or.inl ⟨_, rfl⟩
    | cons d v' =>
      rw [List.cons_append] at h
      obtain ⟨hd, hv'⟩ := List.cons_prefix_cons.mp h
      subst hd
      rcases ih v' hv' with h1 | ⟨h1, h2⟩
      · exact Or.inl (List.cons_prefix_cons.mpr ⟨rfl, h1⟩)
      · exact Or.inr ⟨List.cons_prefix_cons.mpr ⟨rfl, h1⟩, by simpa using h2⟩

theorem inf_cons_split {α : Type} (v : List α) (c : α) (L : List α) (h : v <:+: c :: L) :
    v <+: c :: L ∨ v <:+: L := by
  obtain ⟨s, t, hst⟩ := h
  cases s with
  | nil => exact Or.inl ⟨t, by simpa using hst⟩
  | cons x s' =>
    refine Or.inr ⟨s', t, ?_⟩
    have h2 : x :: (s' ++ v ++ t) = c :: L := by simpa using hst
    exact (List.cons.inj h2).2

theorem inf_cons_of {α : Type} {v L : List α} (c : α) (h : v <:+: L) : v <:+: c :: L := by
  obtain ⟨s, t, rfl⟩ := h
  exact ⟨c :: s, t, rfl⟩

theorem suf_cons_of {α : Type} {v L : List α} (c : α) (h : v <:+ L) : v <:+ c :: L := by
  obtain ⟨s, rfl⟩ := h
  exact ⟨c :: s, rfl⟩

theorem inf_append_split {α : Type} (v x y : List α) (h : v <:+: x ++ y) :
    v <:+: x ∨ v <:+: y ∨
      ∃ a b, v = a ++ b ∧ a ≠ [] ∧ b ≠ [] ∧ a <:+ x ∧ b <+: y := by
  induction x generalizing v with
  | nil => exact Or.inr (Or.inl (by simpa using h))
  | cons c x' ih =>
    rw [List.cons_append] at h
    rcases inf_cons_split v c (x' ++ y) h with h1 | h1
    · rw [show c :: (x' ++ y) = (c :: x') ++ y from rfl] at h1
      rcases pre_append_split v (c :: x') y h1 with h2 | ⟨h2, h3⟩
      · exact Or.inl h2.isInfix
      · by_cases hb : v.drop (c :: x').length = []
        · have hlen : v.length ≤ (c :: x').length := by
            have h5 := congrArg List.length hb
            rw [List.length_drop] at h5
            simp only [List.length_nil, List.length_cons] at h5
            simp only [List.length_cons]
            omega
          have hveq : c :: x' = v :=
            List.IsPrefix.eq_of_length h2 (Nat.le_antisymm h2.length_le hlen)
          exact Or.inl (hveq ▸ List.infix_refl _)
        · refine Or.inr (Or.inr ⟨c :: x', v.drop (c :: x').length, ?_, by simp, hb,
            List.suffix_refl _, h3⟩)
          conv_lhs => rw [← List.take_append_drop (c :: x').length v]
          rw [← List.prefix_iff_eq_take.mp h2]
    · rcases ih v h1 with h2 | h2 | ⟨a, b, h3, h4, h5, h6, h7⟩
      · exact Or.inl (inf_cons_of c h2)
      · exact Or.inr (Or.inl h2)
      · exact Or.inr (Or.inr ⟨a, b, h3, h4, h5, suf_cons_of c h6, h7⟩)

theorem suf_decomp {v w : List Char} (hv : v ≠ []) (hvw : v ≠ w) (h : v <:+ w) :
    ∃ j, 0 < j ∧ j < w.length ∧ v = w.drop j := by
  refine ⟨w.length - v.length, ?_, ?_, (List.suffix_iff_eq_drop.mp h)⟩
  · have hle := h.length_le
    rcases Nat.lt_or_ge v.length w.length with h1 | h1
    · omega
    · exact absurd (List.IsSuffix.eq_of_length h (by omega)) hvw
  · cases v with
    | nil => exact absurd rfl hv
    | cons d v' =>
      have hle := h.length_le
      simp at hle ⊢
      omega


/-! ### More helpers -/

theorem inf_append_left_of {α : Type} (y : List α) {v x : List α} (h : v <:+: x) :
    v <:+: x ++ y := by
  obtain ⟨s, u, rfl⟩ := h
  exact ⟨s, u ++ y, by simp⟩

theorem inf_append_right_of {α : Type} (x : List α) {v y : List α} (h : v <:+: y) :
    v <:+: x ++ y := by
  obtain ⟨s, u, rfl⟩ := h
  exact ⟨x ++ s, u, by simp⟩

theorem pre_take_eq (w m b : List Char) (h : w <+: m ++ b) (hl : w.length = m.length) :
    w = m := by
  have h1 := List.prefix_iff_eq_take.mp h
  rw [hl, List.take_left] at h1
  exact h1

theorem lits_pos (w : List Char) (hw : w ≠ []) :
    ∀ t n, matchToks (litToks w) t = some n → 1 ≤ n := by
  intro t n h
  obtain ⟨c, w', rfl⟩ : ∃ c w', w = c :: w' := by
    cases w with
    | nil => exact absurd rfl hw
    | cons c w' => exact ⟨c, w', rfl⟩
  obtain ⟨t', _, hn⟩ := matchToks_head c (litToks w') t n h
  exact hn

theorem head_mem_of_pre {h₀ : Char} {v' u : List Char} (h : h₀ :: v' <+: u) : h₀ ∈ u := by
  obtain ⟨z, rfl⟩ := h
  exact List.mem_append_left _ (List.mem_cons_self _ _)

/-! ### Occurrences of a fixed string survive a substitution that cannot touch them -/

/-- A literal-pattern substitution preserves every occurrence of `v` when
`v` agrees with the pattern text `w` at no overlap: `w` matches neither at
any offset inside `v` nor across its ends. -/
theorem preserveLit (w v r : List Char) (hw : w ≠ []) (hv : v ≠ [])
    (hP0 : ¬(w <+: v ∨ v <+: w))
    (hP1 : ∀ j, j < w.length → 0 < j → ¬(w.drop j <+: v ∨ v <+: w.drop j))
    (hP2 : ∀ k, k < v.length → 0 < k → ¬(v.drop k <+: w ∨ w <+: v.drop k)) :
    ∀ t : List Char, v <:+: t → v <:+: reSubL (litToks w) r t := by
  suffices H : ∀ n, ∀ t : List Char, t.length ≤ n → v <:+: t → v <:+: reSubL (litToks w) r t by
    exact fun t => H t.length t (Nat.le_refl _)
  intro n
  induction n with
  | zero =>
    intro t ht hocc
    have htn : t = [] := List.eq_nil_of_length_eq_zero (by omega)
    subst htn
    exact absurd (List.infix_nil.mp hocc) hv
  | succ n ih =>
    intro t ht hocc
    rcases findLeft (litToks w) (lits_pos w hw) t with hnm | ⟨a, m, b, he, hm, h1, hno⟩
    · rw [reSubL, subAux_id _ _ t t.length hnm]
      exact hocc
    · subst he
      obtain ⟨hlen, hpre⟩ := lits_match_inv w (m ++ b) m.length hm
      have hmw : m = w := (pre_take_eq w m b hpre hlen.symm).symm
      subst hmw
      have hblen : b.length ≤ n := by
        simp only [List.length_append] at ht
        omega
      rw [reSubL, subAux_step _ r a m b _ (Nat.le_refl _) h1 hm hno]
      rcases inf_append_split v a (m ++ b) (by rwa [← List.append_assoc]) with
        h2 | h2 | ⟨α, β, hv2, hα, hβ, hαs, hβp⟩
      · exact inf_append_left_of _ (inf_append_left_of _ h2)
      · rcases inf_append_split v m b h2 with h3 | h3 | ⟨γ, δ, hv3, hγ, hδ, hγs, hδp⟩
        · obtain ⟨i, hi, hip⟩ := occ_of_inf hv h3
          rcases Nat.eq_zero_or_pos i with h0 | hpos'
          · subst h0
            rw [List.drop_zero] at hip
            exact absurd (Or.inr hip) hP0
          · exact absurd (Or.inr hip) (hP1 i hi hpos')
        · exact inf_append_right_of _ (ih b hblen h3)
        · have hγpre : γ <+: v := by rw [hv3]; exact List.prefix_append γ δ
          by_cases hγw : γ = m
          · subst hγw
            exact absurd (Or.inl hγpre) hP0
          · obtain ⟨j, hj0, hjlt, hjeq⟩ := suf_decomp hγ hγw hγs
            exact absurd (Or.inl (hjeq ▸ hγpre)) (hP1 j hjlt hj0)
      · have hβd : β = v.drop α.length := by rw [hv2, List.drop_left]
        have hk0 : 0 < α.length := by
          cases α with
          | nil => exact absurd rfl hα
          | cons _ _ => simp
        have hklt : α.length < v.length := by
          rw [hv2, List.length_append]
          cases β with
          | nil => exact absurd rfl hβ
          | cons _ _ => simp
        rcases pre_append_split β m b hβp with h3 | ⟨h3, _⟩
        · exact absurd (Or.inl (hβd ▸ h3)) (hP2 α.length hklt hk0)
        · exact absurd (Or.inr (hβd ▸ h3)) (hP2 α.length hklt hk0)

/-- A whitespace-pattern substitution (`w₁` then `\s*` then more tokens)
preserves every occurrence of `v` when the literal head `w₁` agrees with
`v` at no offset and no matched text can contain `v`'s first character. -/
theorem preserveWs (w₁ : List Char) (ts : List Tok) (p : List Tok)
    (hw₁ : w₁ ≠ []) (hp : p = litToks w₁ ++ Tok.wsStar :: ts)
    (h₀ : Char) (v' : List Char) (v : List Char) (hv : v = h₀ :: v') (r : List Char)
    (hX1 : ∀ j, j < v.length → ¬(w₁ <+: v.drop j ∨ v.drop j <+: w₁))
    (hX2 : Tok.lit h₀ ∉ p ∧ pyIsSpace h₀ = false) :
    ∀ t : List Char, v <:+: t → v <:+: reSubL p r t := by
  have hvne : v ≠ [] := by rw [hv]; simp
  have hv0 : 0 < v.length := by rw [hv]; simp
  have hpos : ∀ u n, matchToks p u = some n → 1 ≤ n := by
    intro u n hn
    obtain ⟨c, w₁', rfl⟩ : ∃ c w₁', w₁ = c :: w₁' := by
      cases w₁ with
      | nil => exact absurd rfl hw₁
      | cons c w₁' => exact ⟨c, w₁', rfl⟩
    rw [hp] at hn
    obtain ⟨u', _, h1⟩ := matchToks_head c _ u n hn
    exact h1
  suffices H : ∀ n, ∀ t : List Char, t.length ≤ n → v <:+: t → v <:+: reSubL p r t by
    exact fun t => H t.length t (Nat.le_refl _)
  intro n
  induction n with
  | zero =>
    intro t ht hocc
    have htn : t = [] := List.eq_nil_of_length_eq_zero (by omega)
    subst htn
    exact absurd (List.infix_nil.mp hocc) hvne
  | succ n ih =>
    intro t ht hocc
    rcases findLeft p hpos t with hnm | ⟨a, m, b, he, hm, h1, hno⟩
    · rw [reSubL, subAux_id _ _ t t.length hnm]
      exact hocc
    · subst he
      have hblen : b.length ≤ n := by
        simp only [List.length_append] at ht
        omega
      have hw₁m : w₁ <+: m ++ b := by
        have := litRun_inv w₁ (Tok.wsStar :: ts) (m ++ b) m.length (hp ▸ hm)
        exact this.choose_spec.2.2
      have hchars : ∀ c ∈ m, Tok.lit c ∈ p ∨ pyIsSpace c = true := by
        intro c hc
        have := matchToks_chars p (m ++ b) m.length hm c
        rw [List.take_left] at this
        exact this hc
      rw [reSubL, subAux_step _ r a m b _ (Nat.le_refl _) h1 hm hno]
      rcases inf_append_split v a (m ++ b) (by rwa [← List.append_assoc]) with
        h2 | h2 | ⟨α, β, hv2, hα, hβ, hαs, hβp⟩
      · exact inf_append_left_of _ (inf_append_left_of _ h2)
      · rcases inf_append_split v m b h2 with h3 | h3 | ⟨γ, δ, hv3, hγ, hδ, hδp⟩
        · obtain ⟨i, hi, hip⟩ := occ_of_inf hvne h3
          rcases Nat.eq_zero_or_pos i with h0 | hpos'
          · subst h0
            rw [List.drop_zero] at hip
            have hvm : v <+: m ++ b := hip.trans (List.prefix_append m b)
            rcases List.prefix_or_prefix_of_prefix hw₁m hvm with h4 | h4
            · exact absurd (Or.inl (by simpa using h4)) (hX1 0 hv0)
            · exact absurd (Or.inr (by simpa using h4)) (hX1 0 hv0)
          · have hh : h₀ ∈ m := by
              have hmem : h₀ ∈ m.drop i := head_mem_of_pre (hv ▸ hip)
              exact List.drop_subset i m hmem
            rcases hchars h₀ hh with hc | hc
            · exact absurd hc hX2.1
            · exact absurd hc (by simp [hX2.2])
        · exact inf_append_right_of _ (ih b hblen h3)
        · obtain ⟨hγs, hδpre⟩ := hδp
          have hγpre : γ <+: v := by rw [hv3]; exact List.prefix_append γ δ
          by_cases hγm : γ = m
          · subst hγm
            obtain ⟨u, hu⟩ := hδpre
            have hvm : v <+: γ ++ b := ⟨u, by rw [hv3, List.append_assoc, hu]⟩
            rcases List.prefix_or_prefix_of_prefix hw₁m hvm with h4 | h4
            · exact absurd (Or.inl (by simpa using h4)) (hX1 0 hv0)
            · exact absurd (Or.inr (by simpa using h4)) (hX1 0 hv0)
          · obtain ⟨j, hj0, hjlt, hjeq⟩ := suf_decomp hγ hγm hγs
            have hh : h₀ ∈ m := by
              have hγh : γ = h₀ :: γ.tail := by
                cases γ with
                | nil => exact absurd rfl hγ
                | cons g γ'' =>
                  have := (List.cons_prefix_cons.mp (hv ▸ hγpre)).1
                  simp [this]
              have hmem : h₀ ∈ m.drop j := by
                rw [← hjeq, hγh]
                exact List.mem_cons_self _ _
              exact List.drop_subset j m hmem
            rcases hchars h₀ hh with hc | hc
            · exact absurd hc hX2.1
            · exact absurd hc (by simp [hX2.2])
      · have hβd : β = v.drop α.length := by rw [hv2, List.drop_left]
        have hk0 : 0 < α.length := by
          cases α with
          | nil => exact absurd rfl hα
          | cons _ _ => simp
        have hklt : α.length < v.length := by
          rw [hv2, List.length_append]
          cases β with
          | nil => exact absurd rfl hβ
          | cons _ _ => simp
        rcases List.prefix_or_prefix_of_prefix hw₁m hβp with h4 | h4
        · exact absurd (Or.inl (hβd ▸ h4)) (hX1 α.length hklt)
        · exact absurd (Or.inr (hβd ▸ h4)) (hX1 α.length hklt)


/-- After a literal-pattern substitution `w → r`, the string `v` occurs
nowhere in the output, provided `v` occurs in the input only as the
pattern text itself (`hG5`), does not occur in `r`, is no longer than `r`,
and cannot straddle a replacement boundary (`hG2`, `hG3`). -/
theorem absentLit (w v r : List Char) (hw : w ≠ []) (hv : v ≠ [])
    (hG1 : ¬ v <:+: r)
    (hG2 : ∀ k, k < v.length → 0 < k → ¬ v.drop k <+: r)
    (hG3 : ∀ k, k < v.length → 0 < k → ¬ v.take k <:+ r)
    (hG4 : v.length ≤ r.length) :
    ∀ t : List Char, (v <:+: t → v = w) → ¬ v <:+: reSubL (litToks w) r t := by
  suffices H : ∀ n, ∀ t : List Char, t.length ≤ n → (v <:+: t → v = w) →
      ¬ v <:+: reSubL (litToks w) r t by
    exact fun t => H t.length t (Nat.le_refl _)
  intro n
  induction n with
  | zero =>
    intro t ht _ hocc
    have htn : t = [] := List.eq_nil_of_length_eq_zero (by omega)
    subst htn
    rw [reSubL, subAux_nil] at hocc
    exact absurd (List.infix_nil.mp hocc) hv
  | succ n ih =>
    intro t ht hG5
    rcases findLeft (litToks w) (lits_pos w hw) t with hnm | ⟨a, m, b, he, hm, h1, hno⟩
    · rw [reSubL, subAux_id _ _ t t.length hnm]
      intro hocc
      have hvw := hG5 hocc
      obtain ⟨i, hi, hip⟩ := occ_of_inf hv hocc
      have hmm := lits_match_of w (t.drop i) (hvw ▸ hip)
      rw [hnm i hi] at hmm
      exact Option.noConfusion hmm
    · subst he
      obtain ⟨hlen, hpre⟩ := lits_match_inv w (m ++ b) m.length hm
      have hmw : m = w := (pre_take_eq w m b hpre hlen.symm).symm
      subst hmw
      have hblen : b.length ≤ n := by
        simp only [List.length_append] at ht
        omega
      rw [reSubL, subAux_step _ r a m b _ (Nat.le_refl _) h1 hm hno]
      intro hocc
      rw [List.append_assoc a r] at hocc
      rcases inf_append_split v a (r ++ subAux (litToks m) r b.length b) hocc with
        h2 | h2 | ⟨α, β, hv2, hα, hβ, hαs, hβp⟩
      · -- v inside the match-free region `a`: it would have matched there
        have hvt : v <:+: a ++ m ++ b :=
          inf_append_left_of _ (inf_append_left_of _ h2)
        have hvw := hG5 hvt
        obtain ⟨i, hi, hip⟩ := occ_of_inf hv h2
        have hip2 : v <+: (a ++ m ++ b).drop i := by
          rw [List.append_assoc, List.drop_append_of_le_length (Nat.le_of_lt hi)]
          exact hip.trans (List.prefix_append _ _)
        have hmm := lits_match_of m _ (hvw ▸ hip2)
        rw [hno i hi] at hmm
        exact Option.noConfusion hmm
      · rcases inf_append_split v r (subAux (litToks m) r b.length b) h2 with
          h3 | h3 | ⟨γ, δ, hv3, hγ, hδ, hγs, hδp⟩
        · exact hG1 h3
        · -- v inside the recursively rewritten tail
          have hG5b : v <:+: b → v = m := fun hb =>
            hG5 (by rw [List.append_assoc]; exact inf_append_right_of _ (inf_append_right_of _ hb))
          exact ih b hblen hG5b h3
        · -- v starts inside the replacement `r`
          have hγpre : γ <+: v := by rw [hv3]; exact List.prefix_append γ δ
          by_cases hγv : γ = v
          · exact hG1 (hγv ▸ hγs).isInfix
          · have hγlt : γ.length < v.length :=
              Nat.lt_of_le_of_ne hγpre.length_le
                (fun h => hγv (List.IsPrefix.eq_of_length hγpre h))
            have hγtake : γ = v.take γ.length := List.prefix_iff_eq_take.mp hγpre
            have hγ0 : 0 < γ.length := by
              cases γ with
              | nil => exact absurd rfl hγ
              | cons _ _ => simp
            exact hG3 γ.length hγlt hγ0 (hγtake ▸ hγs)
      · -- v starts in `a` and ends past the replacement boundary
        have hβd : β = v.drop α.length := by rw [hv2, List.drop_left]
        have hk0 : 0 < α.length := by
          cases α with
          | nil => exact absurd rfl hα
          | cons _ _ => simp
        have hklt : α.length < v.length := by
          rw [hv2, List.length_append]
          cases β with
          | nil => exact absurd rfl hβ
          | cons _ _ => simp
        have hβlt : β.length < v.length := by
          rw [hβd, List.length_drop]
          omega
        rcases pre_append_split β r (subAux (litToks m) r b.length b) hβp with h3 | ⟨h3, _⟩
        · exact hG2 α.length hklt hk0 (hβd ▸ h3)
        · have := h3.length_le
          omega

/-- Whenever the pattern text `w` occurs in the input, the replacement `r`
occurs in the output of the substitution `w → r`. -/
theorem producesRepl (w r : List Char) (hw : w ≠ []) :
    ∀ t : List Char, w <:+: t → r <:+: reSubL (litToks w) r t := by
  intro t hocc
  rcases findLeft (litToks w) (lits_pos w hw) t with hnm | ⟨a, m, b, he, hm, h1, hno⟩
  · obtain ⟨i, hi, hip⟩ := occ_of_inf hw hocc
    have hmm := lits_match_of w (t.drop i) hip
    rw [hnm i hi] at hmm
    exact Option.noConfusion hmm
  · subst he
    rw [reSubL, subAux_step _ r a m b _ (Nat.le_refl _) h1 hm hno]
    exact ⟨a, subAux (litToks w) r b.length b, by simp⟩


/-! ### Full-string matches and whitespace-run patterns -/

theorem reSubL_full (p : List Tok) (r t : List Char) (htne : t ≠ [])
    (hm : matchToks p t = some t.length) : reSubL p r t = r := by
  obtain ⟨c, rest, rfl⟩ : ∃ c rest, t = c :: rest := by
    cases t with
    | nil => exact absurd rfl htne
    | cons c rest => exact ⟨c, rest, rfl⟩
  rw [reSubL]
  rw [show (c :: rest).length = rest.length + 1 from rfl]
  rw [subAux_succ_match p r rest.length c rest rest.length (by simpa using hm)]
  rw [List.drop_length, subAux_nil, List.append_nil]

theorem ws_pattern_match (w₁ : List Char) (c : Char) (w₂ : List Char) (s b : List Char)
    (hs : ∀ x ∈ s, pyIsSpace x = true) (hc : pyIsSpace c = false) :
    matchToks (litToks w₁ ++ Tok.wsStar :: litToks (c :: w₂)) (w₁ ++ (s ++ ((c :: w₂) ++ b))) =
      some (w₁.length + (s.length + (w₂.length + 1))) := by
  apply litRun_step
  rw [matchToks]
  have hl : leadingWs (s ++ ((c :: w₂) ++ b)) = s.length := by
    rw [show (c :: w₂) ++ b = c :: (w₂ ++ b) from rfl]
    exact leadingWs_ws_append s c (w₂ ++ b) hs hc
  rw [hl]
  apply tryFrom_hit
  rw [List.drop_left]
  have := lits_match_of (c :: w₂) ((c :: w₂) ++ b) (List.prefix_append _ _)
  simpa using this

/-- A string consisting of a literal run, a whitespace run, and a second
literal run is matched in full by the corresponding `\s*` pattern, so the
substitution replaces it entirely with the replacement text. -/
theorem ws_sub_full (w₁ : List Char) (c : Char) (w₂ : List Char) (r : List Char) (s : List Char)
    (hs : ∀ x ∈ s, pyIsSpace x = true) (hc : pyIsSpace c = false) :
    reSubL (litToks w₁ ++ Tok.wsStar :: litToks (c :: w₂)) r (w₁ ++ s ++ (c :: w₂)) = r := by
  apply reSubL_full
  · simp
  · have h := ws_pattern_match w₁ c w₂ s [] hs hc
    rw [List.append_nil] at h
    rw [show w₁ ++ s ++ (c :: w₂) = w₁ ++ (s ++ (c :: w₂)) from List.append_assoc w₁ s _]
    rw [h]
    congr 1
    simp only [List.length_append, List.length_cons]
    try omega

/-! ### The transform as a chain of eight substitutions -/

theorem fixContent_data (s : String) :
    (fixContent s).data =
      reSubL pat8 "Some(RenderData::Raster2D(frame_data))".data
        (reSubL pat7 "Some(RenderData::Raster2D(video_frame))".data
          (reSubL pat6 "Some(RenderData::Raster2D(frame))".data
            (reSubL pat5 "control_data: None,".data
              (reSubL pat4 []
                (reSubL pat3 []
                  (reSubL pat2 []
                    (reSubL pat1 "render_data:".data s.data))))))) := rfl

/-! ### Behaviour of the per-file procedure and the walk loop -/

theorem fix_in_file_changed (e : FileEntry) (hr : e.readable = true)
    (hw : e.writable = true) (hch : fixContent e.content ≠ e.content) :
    fix_frame_data_in_file e =
      Except.ok ({ e with content := fixContent e.content },
        ["Fixed patterns in " ++ e.name]) := by
  simp [fix_frame_data_in_file, hr, hw, hch]

theorem fix_in_file_unchanged (e : FileEntry) (hr : e.readable = true)
    (hch : fixContent e.content = e.content) :
    fix_frame_data_in_file e = Except.ok (e, []) := by
  simp [fix_frame_data_in_file, hr, hch]

theorem fix_in_file_noread (e : FileEntry) (hr : e.readable = false) :
    fix_frame_data_in_file e = Except.error (FsError.readError, e) := by
  simp [fix_frame_data_in_file, hr]

theorem fix_in_file_nowrite (e : FileEntry) (hr : e.readable = true)
    (hw : e.writable = false) (hch : fixContent e.content ≠ e.content) :
    fix_frame_data_in_file e = Except.error (FsError.writeError, failedWriteState e) := by
  simp [fix_frame_data_in_file, hr, hw, hch]

theorem walkStep_skip (e : FileEntry) (hrs : endsWithRs e.name = false) :
    walkStep e = Except.ok (e, []) := by
  simp [walkStep, hrs]

theorem walkStep_rs (e : FileEntry) (hrs : endsWithRs e.name = true) :
    walkStep e = fix_frame_data_in_file e := by
  simp [walkStep, hrs]

theorem walkStep_logs (e e' : FileEntry) (logs : List String)
    (h : walkStep e = Except.ok (e', logs)) :
    logs = [] ∨ (logs = ["Fixed patterns in " ++ e.name] ∧ endsWithRs e.name = true) := by
  by_cases hrs : endsWithRs e.name = true
  · rw [walkStep_rs e hrs] at h
    by_cases hr : e.readable = true
    · by_cases hch : fixContent e.content = e.content
      · rw [fix_in_file_unchanged e hr hch] at h
        have h2 : e = e' ∧ [] = logs := by simpa using h
        exact Or.inl h2.2.symm
      · by_cases hwr : e.writable = true
        · rw [fix_in_file_changed e hr hwr hch] at h
          have h2 : { e with content := fixContent e.content } = e' ∧
              ["Fixed patterns in " ++ e.name] = logs := by simpa using h
          exact Or.inr ⟨h2.2.symm, hrs⟩
        · rw [fix_in_file_nowrite e hr (by simpa using hwr) hch] at h
          exact absurd h (by simp)
    · rw [fix_in_file_noread e (by simpa using hr)] at h
      exact absurd h (by simp)
  · rw [walkStep_skip e (by simpa using hrs)] at h
    have h2 : e = e' ∧ [] = logs := by simpa using h
    exact Or.inl h2.2.symm

theorem runRewriter_logs (files : List FileEntry) :
    ∀ l ∈ (runRewriter files).2.1, ∃ f, f ∈ files ∧ endsWithRs f.name = true ∧
      l = "Fixed patterns in " ++ f.name := by
  induction files with
  | nil => intro l hl; simp [runRewriter] at hl
  | cons e rest ih =>
    intro l hl
    rw [runRewriter] at hl
    cases hws : walkStep e with
    | error err => rw [hws] at hl; simp at hl
    | ok pr =>
      obtain ⟨e', logs⟩ := pr
      rw [hws] at hl
      rcases List.mem_append.mp hl with h1 | h1
      · rcases walkStep_logs e e' logs hws with h2 | ⟨h2, h3⟩
        · rw [h2] at h1; simp at h1
        · rw [h2] at h1
          rcases List.mem_singleton.mp h1 with rfl
          exact ⟨e, List.mem_cons_self _ _, h3, rfl⟩
      · obtain ⟨f, hf1, hf2, hf3⟩ := ih l h1
        exact ⟨f, List.mem_cons_of_mem _ hf1, hf2, hf3⟩

theorem runRewriter_get (files : List FileEntry) :
    ∀ (i : Nat) (e : FileEntry), files.get? i = some e → endsWithRs e.name = false →
      (runRewriter files).1.get? i = some e := by
  induction files with
  | nil => intro i e hi _; simp at hi
  | cons f rest ih =>
    intro i e hi hrs
    rw [runRewriter]
    cases hws : walkStep f with
    | error pr2 =>
      obtain ⟨err, f'⟩ := pr2
      cases i with
      | zero =>
        have hfe : f = e := by simpa using hi
        subst hfe
        rw [walkStep_skip f hrs] at hws
        simp at hws
      | succ i => simpa using hi
    | ok pr =>
      obtain ⟨f', logs⟩ := pr
      cases i with
      | zero =>
        have hfe : f = e := by simpa using hi
        subst hfe
        rw [walkStep_skip f hrs] at hws
        have h2 : f = f' ∧ [] = logs := by simpa using hws
        simp [← h2.1]
      | succ i =>
        simpa using ih i e (by simpa using hi) hrs

theorem runRewriter_abort (pre : List FileEntry) (e e' : FileEntry) (rest : List FileEntry)
    (err : FsError) (hpre : ∀ f ∈ pre, ∃ x, walkStep f = Except.ok x)
    (he : walkStep e = Except.error (err, e')) :
    runRewriter (pre ++ e :: rest) =
      ((runRewriter pre).1 ++ e' :: rest, (runRewriter pre).2.1, some err) := by
  induction pre with
  | nil =>
    simp only [List.nil_append]
    rw [show runRewriter (e :: rest) = (e' :: rest, [], some err) by rw [runRewriter, he]]
    rfl
  | cons f pre' ih =>
    obtain ⟨x, hx⟩ := hpre f (List.mem_cons_self _ _)
    obtain ⟨f', logs⟩ := x
    have ihh := ih (fun g hg => hpre g (List.mem_cons_of_mem _ hg))
    simp only [List.cons_append, runRewriter, hx, ihh]
    simp [ihh]

/-! ### The transform is the identity when no pattern matches -/

theorem reSub_id (p : List Tok) (r : String) (t : String)
    (h : ∀ i, i < t.data.length → matchToks p (t.data.drop i) = none) :
    reSub p r t = t := by
  unfold reSub reSubL
  rw [subAux_id p r.data t.data t.data.length h]

theorem applyPatterns_id (ps : List (List Tok × String)) (t : String)
    (h : ∀ pr ∈ ps, ∀ i, i < t.data.length → matchToks pr.1 (t.data.drop i) = none) :
    applyPatterns ps t = t := by
  induction ps with
  | nil => rfl
  | cons pr ps ih =>
    obtain ⟨p, r⟩ := pr
    rw [applyPatterns]
    rw [reSub_id p r t (h (p, r) (List.mem_cons_self _ _))]
    exact ih (fun pr' hp' => h pr' (List.mem_cons_of_mem _ hp'))

/-- No pattern of the list matches anywhere in `t` (executable check). -/
def noMatchB (t : String) : Bool :=
  patterns.all fun pr => (List.range t.data.length).all fun i =>
    (matchToks pr.1 (t.data.drop i)).isNone

theorem fixContent_id_of_noMatchB (t : String) (h : noMatchB t = true) :
    fixContent t = t := by
  apply applyPatterns_id
  intro pr hpr i hi
  have h1 := List.all_eq_true.mp h pr hpr
  have h2 := List.all_eq_true.mp h1 i (List.mem_range.mpr hi)
  exact Option.isNone_iff_eq_none.mp h2


/-! ### The claims -/

/-- C1: For every matching file, the final content equals the result of
applying every (pattern, replacement) pair of the fixed eight-element
pattern list, in list order, exactly once each, to the originally-read
content: the loop is a left fold of global substitution over the pattern
list, each pattern applied to the output of the previous one. -/
theorem transform_is_ordered_fold (content : String) :
    fixContent content =
      reSub pat8 "Some(RenderData::Raster2D(frame_data))"
        (reSub pat7 "Some(RenderData::Raster2D(video_frame))"
          (reSub pat6 "Some(RenderData::Raster2D(frame))"
            (reSub pat5 "control_data: None,"
              (reSub pat4 ""
                (reSub pat3 ""
                  (reSub pat2 ""
                    (reSub pat1 "render_data:" content))))))) ∧
    fixContent content =
      patterns.foldl (fun acc pr => reSub pr.1 pr.2 acc) content :=
  ⟨rfl, rfl⟩

/-- C2: For a readable, writable matching file, the file is overwritten
with the fully transformed content and exactly one log line
`Fixed patterns in <path>` is emitted when the transformed content differs
from the original; when they are equal the file is left unchanged and no
log line is emitted. -/
theorem write_and_log_iff_changed (e : FileEntry) (hr : e.readable = true)
    (hw : e.writable = true) (hrs : endsWithRs e.name = true) :
    (fixContent e.content ≠ e.content →
      walkStep e = Except.ok ({ e with content := fixContent e.content },
        ["Fixed patterns in " ++ e.name])) ∧
    (fixContent e.content = e.content → walkStep e = Except.ok (e, [])) := by
  constructor
  · intro hch
    rw [walkStep_rs e hrs]
    exact fix_in_file_changed e hr hw hch
  · intro hch
    rw [walkStep_rs e hrs]
    exact fix_in_file_unchanged e hr hch

theorem write_and_log_iff_changed_w :
    walkStep ⟨"a.rs", "video_data:", true, true, false, 0⟩ =
      Except.ok ({ FileEntry.mk "a.rs" "video_data:" true true false 0 with
        content := fixContent "video_data:" }, ["Fixed patterns in " ++ "a.rs"]) :=
  (write_and_log_iff_changed ⟨"a.rs", "video_data:", true, true, false, 0⟩ rfl rfl
    (by decide)).1 (by decide)

/-- C3: For every pattern in the list, one application replaces every
non-overlapping occurrence of its search expression, scanning
left-to-right: text containing no match is returned unchanged, and at the
leftmost match the replacement is emitted and scanning continues on the
remainder of the string (not only the first occurrence). -/
theorem global_sub (pr : List Tok × String) (hmem : pr ∈ patterns) :
    (∀ t : List Char, (∀ i, i < t.length → matchToks pr.1 (t.drop i) = none) →
      reSubL pr.1 pr.2.data t = t) ∧
    (∀ a m b : List Char,
      matchToks pr.1 (m ++ b) = some m.length →
      (∀ i, i < a.length → matchToks pr.1 ((a ++ m ++ b).drop i) = none) →
      reSubL pr.1 pr.2.data (a ++ m ++ b) =
        a ++ pr.2.data ++ reSubL pr.1 pr.2.data b) := by
  have hpos : ∀ t n, matchToks pr.1 t = some n → 1 ≤ n := by
    have hlit : ∃ c ts, pr.1 = Tok.lit c :: ts := by
      fin_cases hmem <;> exact ⟨_, _, rfl⟩
    obtain ⟨c, ts, hp⟩ := hlit
    intro t n h
    rw [hp] at h
    exact (matchToks_head c ts t n h).choose_spec.2
  constructor
  · intro t hnm
    rw [reSubL, subAux_id _ _ t t.length hnm]
  · intro a m b hm hno
    have h1 : 1 ≤ m.length := hpos (m ++ b) m.length hm
    rw [reSubL, subAux_step _ _ a m b _ (Nat.le_refl _) h1 hm hno, reSubL]

theorem global_sub_w :
    reSubL pat1 "render_data:".data
        ("x ".data ++ "video_data:".data ++ " video_data: y".data) =
      "x ".data ++ "render_data:".data ++
        reSubL pat1 "render_data:".data " video_data: y".data :=
  (global_sub (pat1, "render_data:") (by decide)).2
    "x ".data "video_data:".data " video_data: y".data (by decide) (by decide)

/-- C4: Pattern application is order-sensitive: the loop computes
`apply(P2, apply(P1, original))` for consecutive patterns, and on the
input `video_tally_data: None,data:` doing it the other way around with
the program's first two patterns gives a different result (deleting
`tally_data: None,` first creates a fresh `video_data:` occurrence). -/
theorem order_sensitive :
    (∀ (s : String) (q₁ q₂ : List Tok × String),
      applyPatterns [q₁, q₂] s = reSub q₂.1 q₂.2 (reSub q₁.1 q₁.2 s)) ∧
    applyPatterns [(pat1, "render_data:"), (pat2, "")] "video_tally_data: None,data:" ≠
      reSub pat1 "render_data:" (reSub pat2 "" "video_tally_data: None,data:") := by
  constructor
  · intro s q₁ q₂
    obtain ⟨p₁, r₁⟩ := q₁
    obtain ⟨p₂, r₂⟩ := q₂
    rfl
  · decide

/-- C5 counterexample: The full migration pass is not idempotent: on
`video_tally_data: None,data:` the first pass deletes `tally_data: None,`,
creating a fresh `video_data:` occurrence that only the second pass
rewrites, so the second pass is not a no-op. -/
theorem second_pass_changes :
    fixContent (fixContent "video_tally_data: None,data:") ≠
      fixContent "video_tally_data: None,data:" := by decide

/-- C5 amended: The migration pass is idempotent on every input whose
once-transformed content matches no pattern anywhere; in general a second
pass can change the content again, as `second_pass_changes` shows. -/
theorem second_pass_noop_of_noMatch (s : String)
    (h : noMatchB (fixContent s) = true) :
    fixContent (fixContent s) = fixContent s :=
  fixContent_id_of_noMatchB (fixContent s) h

theorem second_pass_noop_of_noMatch_w :
    fixContent (fixContent "video_data: x") = fixContent "video_data: x" :=
  second_pass_noop_of_noMatch "video_data: x" (by decide)

/-- C6: A file whose name does not end in `.rs` is left unchanged by
the run — no pattern is ever applied to it — and every log line the run
emits names a file whose name does end in `.rs`. -/
theorem non_rs_untouched (files : List FileEntry) (i : Nat) (e : FileEntry)
    (hi : files.get? i = some e) (hrs : endsWithRs e.name = false) :
    (runRewriter files).1.get? i = some e ∧
    ∀ l ∈ (runRewriter files).2.1, ∃ f, f ∈ files ∧ endsWithRs f.name = true ∧
      l = "Fixed patterns in " ++ f.name :=
  ⟨runRewriter_get files i e hi hrs, runRewriter_logs files⟩

theorem non_rs_untouched_w :
    (runRewriter [⟨"a.txt", "video_data:", true, true, false, 0⟩,
        ⟨"b.rs", "video_data:", true, true, false, 0⟩]).1.get? 0 =
      some ⟨"a.txt", "video_data:", true, true, false, 0⟩ ∧
    ∀ l ∈ (runRewriter [⟨"a.txt", "video_data:", true, true, false, 0⟩,
        ⟨"b.rs", "video_data:", true, true, false, 0⟩]).2.1,
      ∃ f, f ∈ [⟨"a.txt", "video_data:", true, true, false, 0⟩,
        (⟨"b.rs", "video_data:", true, true, false, 0⟩ : FileEntry)] ∧
        endsWithRs f.name = true ∧ l = "Fixed patterns in " ++ f.name :=
  non_rs_untouched _ 0 ⟨"a.txt", "video_data:", true, true, false, 0⟩ rfl (by decide)

/-- C7 counterexample: A directory-listing failure during traversal
is not fatal: `os.walk` is called without `onerror`, so a failing
directory is silently skipped and every file of the remaining directories
is still processed — here the run finishes with no error and still
rewrites `a.rs`, contradicting the claim that a TraversalError aborts the
run with no further files processed. -/
theorem traversal_error_not_fatal :
    (runRewriter (osWalk [Except.error FsError.traversalError,
      Except.ok [⟨"a.rs", "video_data:", true, true, false, 0⟩]])).2.2 = none ∧
    (runRewriter (osWalk [Except.error FsError.traversalError,
      Except.ok [⟨"a.rs", "video_data:", true, true, false, 0⟩]])).2.1 =
      ["Fixed patterns in a.rs"] :=
  ⟨rfl, rfl⟩

/-- C7 amended: Read, decode, and write failures are fatal: they are never
caught, the run aborts at the failing file, and no further files are
processed — files after the failing one are untouched and no further log
lines are emitted.  The failing file itself is untouched on a read failure
or when `open(filepath, 'w')` itself fails; when that open succeeds it
truncates the file before the write, so a mid-write failure leaves the
file holding only the flushed prefix of the transformed content
(`failedWriteState`).  Directory-listing failures during traversal, by
contrast, are silently ignored by `os.walk`'s default `onerror=None`: the
unlistable directory is skipped and the walk continues. -/
theorem io_error_aborts :
    (∀ (pre : List FileEntry) (e e' : FileEntry) (rest : List FileEntry) (err : FsError),
      (∀ f ∈ pre, ∃ x, walkStep f = Except.ok x) →
      walkStep e = Except.error (err, e') →
      runRewriter (pre ++ e :: rest) =
        ((runRewriter pre).1 ++ e' :: rest, (runRewriter pre).2.1, some err)) ∧
    (∀ e : FileEntry, endsWithRs e.name = true → e.readable = false →
      walkStep e = Except.error (FsError.readError, e)) ∧
    (∀ e : FileEntry, endsWithRs e.name = true → e.readable = true →
      e.writable = false → fixContent e.content ≠ e.content →
      walkStep e = Except.error (FsError.writeError, failedWriteState e)) ∧
    (∀ (err : FsError) (ds : List (Except FsError (List FileEntry))),
      osWalk (Except.error err :: ds) = osWalk ds) := by
  refine ⟨runRewriter_abort, ?_, ?_, fun _ _ => rfl⟩
  · intro e hrs hr
    rw [walkStep_rs e hrs]
    exact fix_in_file_noread e hr
  · intro e hrs hr hw hch
    rw [walkStep_rs e hrs]
    exact fix_in_file_nowrite e hr hw hch

theorem io_error_aborts_w :
    runRewriter ([⟨"ok.rs", "video_data:", true, true, false, 0⟩] ++
        ⟨"bad.rs", "video_data:", false, true, false, 0⟩ ::
          [⟨"later.rs", "video_data:", true, true, false, 0⟩]) =
      ((runRewriter [⟨"ok.rs", "video_data:", true, true, false, 0⟩]).1 ++
        ⟨"bad.rs", "video_data:", false, true, false, 0⟩ ::
          [⟨"later.rs", "video_data:", true, true, false, 0⟩],
        (runRewriter [⟨"ok.rs", "video_data:", true, true, false, 0⟩]).2.1,
        some FsError.readError) ∧
    walkStep ⟨"bad.rs", "video_data:", false, true, false, 0⟩ =
      Except.error (FsError.readError, ⟨"bad.rs", "video_data:", false, true, false, 0⟩) ∧
    walkStep ⟨"t.rs", "video_data: x", true, false, true, 3⟩ =
      Except.error (FsError.writeError,
        failedWriteState ⟨"t.rs", "video_data: x", true, false, true, 3⟩) ∧
    osWalk (Except.error FsError.readError :: []) = osWalk [] := by
  refine ⟨io_error_aborts.1 _ _ _ _ _ ?_ rfl,
    io_error_aborts.2.1 _ (by decide) rfl,
    io_error_aborts.2.2.1 _ (by decide) rfl rfl (by decide),
    io_error_aborts.2.2.2 _ _⟩
  intro f hf
  have hfe : f = ⟨"ok.rs", "video_data:", true, true, false, 0⟩ := by simpa using hf
  subst hfe
  exact ⟨_, rfl⟩

/-! ### Chains of passes for the `Some(...)` forms -/

/-- The string `Some(frame)` survives the first five substitutions untouched. -/
theorem f6_through_first_five (d : List Char) (h : "Some(frame)".data <:+: d) :
    "Some(frame)".data <:+:
      reSubL pat5 "control_data: None,".data
        (reSubL pat4 []
          (reSubL pat3 []
            (reSubL pat2 []
              (reSubL pat1 "render_data:".data d)))) := by
  apply preserveWs "transform_data:".data (strToks "None,") pat5 (by decide) rfl
    'S' "ome(frame)".data _ rfl _ (by decide) (by decide)
  apply preserveWs "spatial_audio_data:".data (strToks "None,") pat4 (by decide) rfl
    'S' "ome(frame)".data _ rfl _ (by decide) (by decide)
  apply preserveWs "scene3d_data:".data (strToks "None,") pat3 (by decide) rfl
    'S' "ome(frame)".data _ rfl _ (by decide) (by decide)
  apply preserveWs "tally_data:".data (strToks "None,") pat2 (by decide) rfl
    'S' "ome(frame)".data _ rfl _ (by decide) (by decide)
  apply preserveLit "video_data:".data "Some(frame)".data _
    (by decide) (by decide) (by decide) (by decide) (by decide)
  exact h

/-- If the input contains `Some(frame)`, the transformed output contains
`Some(RenderData::Raster2D(frame))`: the sixth pattern wraps the
occurrence and the last two patterns cannot touch the result. -/
theorem r6_in_output (s : String) (hocc : "Some(frame)".data <:+: s.data) :
    "Some(RenderData::Raster2D(frame))".data <:+: (fixContent s).data := by
  rw [fixContent_data]
  apply preserveLit "Some(frame_data)".data "Some(RenderData::Raster2D(frame))".data _
    (by decide) (by decide) (by decide) (by decide) (by decide)
  apply preserveLit "Some(video_frame)".data "Some(RenderData::Raster2D(frame))".data _
    (by decide) (by decide) (by decide) (by decide) (by decide)
  apply producesRepl "Some(frame)".data "Some(RenderData::Raster2D(frame))".data (by decide)
  exact f6_through_first_five s.data hocc

/-- The transformed output never contains `Some(frame)`: the sixth pattern
replaces every occurrence, nothing can straddle a replacement boundary,
and the last two patterns cannot reintroduce it. -/
theorem f6_not_in_output (s : String) :
    ¬ "Some(frame)".data <:+: (fixContent s).data := by
  rw [fixContent_data]
  apply absentLit "Some(frame_data)".data "Some(frame)".data _
    (by decide) (by decide) (by decide) (by decide) (by decide) (by decide)
  intro hcon
  exfalso
  revert hcon
  apply absentLit "Some(video_frame)".data "Some(frame)".data _
    (by decide) (by decide) (by decide) (by decide) (by decide) (by decide)
  intro hcon
  exfalso
  revert hcon
  apply absentLit "Some(frame)".data "Some(frame)".data _
    (by decide) (by decide) (by decide) (by decide) (by decide) (by decide)
  exact fun _ => rfl

/-- C8: For a readable, writable matching file whose content contains
`Some(frame)`, the output of the migration pass contains
`Some(RenderData::Raster2D(frame))`, the file is rewritten, and the log
line is emitted (the output never contains `Some(frame)`, so it always
differs from the original). -/
theorem some_frame_rewritten (e : FileEntry) (hr : e.readable = true)
    (hw : e.writable = true) (hrs : endsWithRs e.name = true)
    (hocc : "Some(frame)".data <:+: e.content.data) :
    walkStep e = Except.ok ({ e with content := fixContent e.content },
      ["Fixed patterns in " ++ e.name]) ∧
    "Some(RenderData::Raster2D(frame))".data <:+: (fixContent e.content).data ∧
    fixContent e.content ≠ e.content := by
  have hR := r6_in_output e.content hocc
  have hA := f6_not_in_output e.content
  have hne : fixContent e.content ≠ e.content := by
    intro hEq
    exact hA (by rw [hEq]; exact hocc)
  refine ⟨?_, hR, hne⟩
  rw [walkStep_rs e hrs]
  exact fix_in_file_changed e hr hw hne

theorem some_frame_rewritten_w :
    walkStep ⟨"f.rs", "x Some(frame) y", true, true, false, 0⟩ =
      Except.ok ({ FileEntry.mk "f.rs" "x Some(frame) y" true true false 0 with
        content := fixContent "x Some(frame) y" }, ["Fixed patterns in " ++ "f.rs"]) ∧
    "Some(RenderData::Raster2D(frame))".data <:+: (fixContent "x Some(frame) y").data ∧
    fixContent "x Some(frame) y" ≠ "x Some(frame) y" :=
  some_frame_rewritten ⟨"f.rs", "x Some(frame) y", true, true, false, 0⟩ rfl rfl
    (by decide) (by decide)

/-- C9: The four `\s*` patterns match the field name followed by
`None,` separated by any run of whitespace — including none at all — and
the `transform_data` replacement normalizes the separator, producing
exactly `control_data: None,`. -/
theorem ws_patterns_any_whitespace (s : List Char) (hs : ∀ c ∈ s, pyIsSpace c = true) :
    reSubL pat2 [] ("tally_data:".data ++ s ++ "None,".data) = [] ∧
    reSubL pat3 [] ("scene3d_data:".data ++ s ++ "None,".data) = [] ∧
    reSubL pat4 [] ("spatial_audio_data:".data ++ s ++ "None,".data) = [] ∧
    reSubL pat5 "control_data: None,".data
      ("transform_data:".data ++ s ++ "None,".data) = "control_data: None,".data := by
  refine ⟨?_, ?_, ?_, ?_⟩ <;>
    exact ws_sub_full _ 'N' "one,".data _ s hs (by decide)

theorem ws_patterns_any_whitespace_w :
    reSubL pat2 [] ("tally_data:".data ++ ['\n', ' ', ' '] ++ "None,".data) = [] ∧
    reSubL pat3 [] ("scene3d_data:".data ++ ['\n', ' ', ' '] ++ "None,".data) = [] ∧
    reSubL pat4 [] ("spatial_audio_data:".data ++ ['\n', ' ', ' '] ++ "None,".data) = [] ∧
    reSubL pat5 "control_data: None,".data
      ("transform_data:".data ++ ['\n', ' ', ' '] ++ "None,".data) =
      "control_data: None,".data :=
  ws_patterns_any_whitespace ['\n', ' ', ' '] (by decide)

/-- C10: The pattern `Some\(frame\)` requires the closing parenthesis
right after `frame`, so it matches at no position of `Some(video_frame)`
or `Some(frame_data)`; consequently each of those two forms, wherever it
occurs, is wrapped in `RenderData::Raster2D(...)` exactly once per pass —
the singly-wrapped result appears in the output and no earlier pattern
(in particular not `Some(frame)`, applied first) disturbs it. -/
theorem some_forms_wrapped_once :
    (∀ i, i < "Some(video_frame)".data.length →
      matchToks pat6 ("Some(video_frame)".data.drop i) = none) ∧
    (∀ i, i < "Some(frame_data)".data.length →
      matchToks pat6 ("Some(frame_data)".data.drop i) = none) ∧
    (∀ s : String, "Some(video_frame)".data <:+: s.data →
      "Some(RenderData::Raster2D(video_frame))".data <:+: (fixContent s).data) ∧
    (∀ s : String, "Some(frame_data)".data <:+: s.data →
      "Some(RenderData::Raster2D(frame_data))".data <:+: (fixContent s).data) := by
  refine ⟨by decide, by decide, ?_, ?_⟩
  · intro s hocc
    rw [fixContent_data]
    apply preserveLit "Some(frame_data)".data
      "Some(RenderData::Raster2D(video_frame))".data _
      (by decide) (by decide) (by decide) (by decide) (by decide)
    apply producesRepl "Some(video_frame)".data
      "Some(RenderData::Raster2D(video_frame))".data (by decide)
    apply preserveLit "Some(frame)".data "Some(video_frame)".data _
      (by decide) (by decide) (by decide) (by decide) (by decide)
    apply preserveWs "transform_data:".data (strToks "None,") pat5 (by decide) rfl
      'S' "ome(video_frame)".data _ rfl _ (by decide) (by decide)
    apply preserveWs "spatial_audio_data:".data (strToks "None,") pat4 (by decide) rfl
      'S' "ome(video_frame)".data _ rfl _ (by decide) (by decide)
    apply preserveWs "scene3d_data:".data (strToks "None,") pat3 (by decide) rfl
      'S' "ome(video_frame)".data _ rfl _ (by decide) (by decide)
    apply preserveWs "tally_data:".data (strToks "None,") pat2 (by decide) rfl
      'S' "ome(video_frame)".data _ rfl _ (by decide) (by decide)
    apply preserveLit "video_data:".data "Some(video_frame)".data _
      (by decide) (by decide) (by decide) (by decide) (by decide)
    exact hocc
  · intro s hocc
    rw [fixContent_data]
    apply producesRepl "Some(frame_data)".data
      "Some(RenderData::Raster2D(frame_data))".data (by decide)
    apply preserveLit "Some(video_frame)".data "Some(frame_data)".data _
      (by decide) (by decide) (by decide) (by decide) (by decide)
    apply preserveLit "Some(frame)".data "Some(frame_data)".data _
      (by decide) (by decide) (by decide) (by decide) (by decide)
    apply preserveWs "transform_data:".data (strToks "None,") pat5 (by decide) rfl
      'S' "ome(frame_data)".data _ rfl _ (by decide) (by decide)
    apply preserveWs "spatial_audio_data:".data (strToks "None,") pat4 (by decide) rfl
      'S' "ome(frame_data)".data _ rfl _ (by decide) (by decide)
    apply preserveWs "scene3d_data:".data (strToks "None,") pat3 (by decide) rfl
      'S' "ome(frame_data)".data _ rfl _ (by decide) (by decide)
    apply preserveWs "tally_data:".data (strToks "None,") pat2 (by decide) rfl
      'S' "ome(frame_data)".data _ rfl _ (by decide) (by decide)
    apply preserveLit "video_data:".data "Some(frame_data)".data _
      (by decide) (by decide) (by decide) (by decide) (by decide)
    exact hocc

theorem some_forms_wrapped_once_w :
    matchToks pat6 ("Some(video_frame)".data.drop 0) = none ∧
    matchToks pat6 ("Some(frame_data)".data.drop 0) = none ∧
    "Some(RenderData::Raster2D(video_frame))".data <:+:
      (fixContent "a Some(video_frame)").data ∧
    "Some(RenderData::Raster2D(frame_data))".data <:+:
      (fixContent "b Some(frame_data)").data :=
  ⟨some_forms_wrapped_once.1 0 (by decide), some_forms_wrapped_once.2.1 0 (by decide),
    some_forms_wrapped_once.2.2.1 "a Some(video_frame)" (by decide),
    some_forms_wrapped_once.2.2.2 "b Some(frame_data)" (by decide)⟩

end FixFrameData
